import Mathlib

/-!
Verification of the clause-segmentation-and-risk-classification pipeline of
`src/app.py` (GenAI Legal Assistant).  Python strings are modelled as lists of
characters (`PyStr`); each Python function of the core pipeline is translated
into an executable Lean definition operating on `PyStr`, and the specified
properties are proved about these definitions.

Modelling conventions:
* Python's whitespace class (as used by `str.split`, `str.strip` and the
  regex class `\s`) is modelled by `pyIsSpace`, covering the six ASCII
  whitespace characters.  The inputs handled by this program never use the
  rarer Unicode whitespace code points.
* `str.lower` is modelled by `Char.toLower` mapped over the string: ASCII
  case folding.  All trigger/keyword lists in the source are ASCII or
  Devanagari (caseless), so this coincides with Python on the relevant data.
* Regex character classes `[A-Za-z]`, `[A-Z]`, `[a-z]`, `\d` and `\w` are
  modelled over ASCII, matching their literal meaning in the source patterns.
-/

namespace LegalAssistant

/-- A Python string, modelled as its list of characters. -/
abbrev PyStr := List Char

/-- Python whitespace (`str.split()` / `str.strip()` / regex `\s`). -/
def pyIsSpace (c : Char) : Bool :=
  c = ' ' || c = '\t' || c = '\n' || c = '\r' || c = '\x0b' || c = '\x0c'

/-- The sentence-terminal characters of the splitting regex
`(?<=[.!?।])\s+` in `split_into_clauses` (src/app.py line 50). -/
def isTerm (c : Char) : Bool :=
  c = '.' || c = '!' || c = '?' || c = '।'

/-- Python `str.lower()` (ASCII case folding; see module comment). -/
def pyLower (s : PyStr) : PyStr := s.map Char.toLower

/-- Python substring containment `needle in hay`. -/
def pyContains (hay needle : PyStr) : Bool :=
  match hay with
  | [] => needle.isEmpty
  | _ :: rest => needle.isPrefixOf hay || pyContains rest needle

/-- Remove leading whitespace (first half of Python `str.strip()`). -/
def stripFront (s : PyStr) : PyStr := s.dropWhile pyIsSpace

/-- Remove trailing whitespace (second half of Python `str.strip()`). -/
def stripBack (s : PyStr) : PyStr := (s.reverse.dropWhile pyIsSpace).reverse

/-- Python `str.strip()`. -/
def pyStrip (s : PyStr) : PyStr := stripBack (stripFront s)

/-- `text.replace("\r", " ").replace("\n", " ")` (src/app.py line 48). -/
def replaceNl (s : PyStr) : PyStr :=
  s.map fun c => if c = '\r' || c = '\n' then ' ' else c

/-- Fuelled worker for `pySplitWs`; the fuel is an upper bound on the number
of remaining characters, so `pySplitWs` below always supplies enough. -/
def pySplitWsF : Nat → PyStr → List PyStr
  | 0, _ => []
  | _ + 1, [] => []
  | fuel + 1, c :: rest =>
    if pyIsSpace c then pySplitWsF fuel rest
    else (c :: rest.takeWhile (fun d => !pyIsSpace d)) ::
      pySplitWsF fuel (rest.dropWhile (fun d => !pyIsSpace d))

/-- Python `str.split()` with no separator: maximal runs of
non-whitespace characters, in order. -/
def pySplitWs (s : PyStr) : List PyStr := pySplitWsF s.length s

/-- Python `" ".join(tokens)` (src/app.py line 49). -/
def joinSpace : List PyStr → PyStr
  | [] => []
  | [t] => t
  | t :: ts => t ++ ' ' :: joinSpace ts

/-- Lines 48-49 of src/app.py: replace CR/LF by spaces, then collapse all
whitespace runs to single spaces and trim the ends. -/
def normalize (s : PyStr) : PyStr := joinSpace (pySplitWs (replaceNl s))

/-- Locate the first split point of the regex `(?<=[.!?।])\s+`: a whitespace
character whose predecessor is sentence-terminal punctuation.  Returns the
piece before the split (punctuation included) and the remainder after the
maximal whitespace run, or `none` when the regex does not match. -/
def findSplit : PyStr → Option (PyStr × PyStr)
  | [] => none
  | [_] => none
  | a :: b :: rest =>
    if isTerm a && pyIsSpace b then
      some ([a], (b :: rest).dropWhile pyIsSpace)
    else
      match findSplit (b :: rest) with
      | none => none
      | some (p, r) => some (a :: p, r)

/-- Fuelled worker for `reSplit`; every matched separator consumes at least
one character, so fuel `s.length + 1` always suffices. -/
def reSplitF : Nat → PyStr → List PyStr
  | 0, s => [s]
  | fuel + 1, s =>
    match findSplit s with
    | none => [s]
    | some (p, r) => p :: reSplitF fuel r

/-- `re.split(r'(?<=[.!?।])\s+', text)` (src/app.py line 50). -/
def reSplit (s : PyStr) : List PyStr := reSplitF (s.length + 1) s

/-- The trigger-keyword list of `split_into_clauses`
(src/app.py lines 53-57). -/
def triggers : List PyStr :=
  ["shall", "must", "may", "terminate", "indemnify", "penalty",
   "arbitration", "jurisdiction", "renew", "confidential",
   "non-compete", "वेतन", "समाप्त", "क्षतिपूर्ति", "दंड", "मध्यस्थता"].map String.toList

/-- `any(k in sent.lower() for k in triggers)` (src/app.py line 62). -/
def hasLegalIntent (sent : PyStr) : Bool :=
  triggers.any fun k => pyContains (pyLower sent) k

/-- The grouping loop of `split_into_clauses` (src/app.py lines 59-67),
threading the `(clauses, buffer)` state through the sentence list. -/
def groupLoop : List PyStr → List PyStr → PyStr → List PyStr × PyStr
  | [], clauses, buffer => (clauses, buffer)
  | sent :: rest, clauses, buffer =>
    if sent.length < 30 then groupLoop rest clauses buffer
    else if hasLegalIntent sent then
      groupLoop rest
        (if buffer ≠ [] then clauses ++ [pyStrip buffer] else clauses) sent
    else groupLoop rest clauses (buffer ++ ' ' :: sent)

/-- Lines 69-70 of src/app.py: flush the remaining buffer if its stripped
form is non-empty. -/
def flushFinal (st : List PyStr × PyStr) : List PyStr :=
  if pyStrip st.2 ≠ [] then st.1 ++ [pyStrip st.2] else st.1

/-- The clause list produced by the grouping loop together with the final
flush, before the whole-text fallback, on already-normalized text. -/
def groupedClauses (t : PyStr) : List PyStr :=
  flushFinal (groupLoop (reSplit t) [] [])

/-- `split_into_clauses` (src/app.py lines 47-72). -/
def split_into_clauses (text : PyStr) : List PyStr :=
  let t := normalize text
  if groupedClauses t ≠ [] then groupedClauses t else [t]

/-- The sentences the grouping loop retains (trimmed length at least 30),
in order; used to phrase properties about "the first retained sentence". -/
def retainedSentences (text : PyStr) : List PyStr :=
  (reSplit (normalize text)).filter fun s => 30 ≤ s.length

/-- `classify_clause` (src/app.py lines 75-83). -/
def classify_clause (text : PyStr) : String :=
  let t := pyLower text
  if pyContains t ("shall not".toList) || pyContains t ("must not".toList) then
    "Prohibition"
  else if pyContains t ("shall".toList) || pyContains t ("must".toList) then
    "Obligation"
  else if pyContains t ("may".toList) then "Right"
  else "General"

/-- `detect_risks` (src/app.py lines 85-100). -/
def detect_risks (text : PyStr) : List String :=
  let t := pyLower text
  (if pyContains t ("penalty".toList) || pyContains t ("fine".toList) then
    ["Penalty clause may impose financial burden."] else []) ++
  (if pyContains t ("indemnify".toList) then
    ["Indemnity clause shifts legal liability."] else []) ++
  (if pyContains t ("non-compete".toList) then
    ["Non-compete restricts future work or business."] else []) ++
  (if pyContains t ("terminate without notice".toList) ||
      pyContains t ("sole discretion".toList) then
    ["Unilateral termination favors one party."] else []) ++
  (if pyContains t ("arbitration".toList) || pyContains t ("jurisdiction".toList) then
    ["Arbitration or jurisdiction may increase legal cost."] else []) ++
  (if pyContains t ("auto".toList) && pyContains t ("renew".toList) then
    ["Auto-renewal may lock parties into agreement."] else [])

/-- `score_clause` (src/app.py lines 102-105). -/
def score_clause (risks : List String) : String :=
  if risks = [] then "Low"
  else if risks.length = 1 then "Medium" else "High"

/-- `detect_ambiguity` (src/app.py lines 112-117). -/
def detect_ambiguity (text : PyStr) : List String :=
  ["reasonable", "as required", "from time to time",
   "at discretion", "as deemed fit", "as applicable"].filter
    fun a => pyContains (pyLower text) a.toList

/-- The advisory lines appended for a single risk statement
(src/app.py lines 121-129), in source check order. -/
def adviceFor (r : String) : List String :=
  (if pyContains (pyLower r.toList) ("termination".toList) then
    ["Add mutual notice period for termination."] else []) ++
  (if pyContains (pyLower r.toList) ("non-compete".toList) then
    ["Limit non-compete scope and duration."] else []) ++
  (if pyContains (pyLower r.toList) ("indemnity".toList) then
    ["Cap indemnity liability to a reasonable amount."] else []) ++
  (if pyContains (pyLower r.toList) ("auto-renew".toList) then
    ["Add opt-out clause before renewal."] else [])

/-- `mitigation_advice` (src/app.py lines 119-130). -/
def mitigation_advice (risks : List String) : List String :=
  (risks.map adviceFor).flatten

/-- ASCII word character (regex `\w`) for the `\b` boundaries of the
entity-extraction patterns. -/
def isWordChar (c : Char) : Bool := c.isAlpha || c.isDigit || c = '_'

/-- A `\b` boundary before a word character, given the character preceding
the current scan position (`none` at the start of the text). -/
def atWordBoundary (prev : Option Char) : Bool :=
  match prev with
  | none => true
  | some c => !isWordChar c

/-- A `\b` boundary after a word character, given the rest of the text. -/
def endBoundary (rest : PyStr) : Bool :=
  match rest with
  | [] => true
  | c :: _ => !isWordChar c

/-- Matcher for the date pattern `\b\d{1,2}\s+[A-Za-z]+\s+\d{4}\b`
(src/app.py line 134) at the current position; returns the matched text and
the remainder.  `\d{1,2}` succeeds exactly when the leading digit run has
length 1 or 2 (a third digit defeats both greedy choices). -/
def matchDate (prev : Option Char) (s : PyStr) : Option (PyStr × PyStr) :=
  if !atWordBoundary prev then none else
  let ds := s.takeWhile Char.isDigit
  if ds.length = 0 || 2 < ds.length then none else
  let s1 := s.drop ds.length
  let ws1 := s1.takeWhile pyIsSpace
  if ws1 = [] then none else
  let s2 := s1.drop ws1.length
  let als := s2.takeWhile Char.isAlpha
  if als = [] then none else
  let s3 := s2.drop als.length
  let ws2 := s3.takeWhile pyIsSpace
  if ws2 = [] then none else
  let s4 := s3.drop ws2.length
  let ys := s4.take 4
  if ys.length = 4 && ys.all Char.isDigit && endBoundary (s4.drop 4) then
    some (ds ++ ws1 ++ als ++ ws2 ++ ys, s4.drop 4)
  else none

/-- `\s?\d+` after a matched currency marker: an optional single whitespace
character (kept only when digits follow it) and then a maximal digit run. -/
def amountNum (pre : PyStr) (rest : PyStr) : Option (PyStr × PyStr) :=
  match rest with
  | [] => none
  | c :: rest2 =>
    if pyIsSpace c then
      let ds := rest2.takeWhile Char.isDigit
      if ds = [] then none else some (pre ++ c :: ds, rest2.drop ds.length)
    else
      let ds := rest.takeWhile Char.isDigit
      if ds = [] then none else some (pre ++ ds, rest.drop ds.length)

/-- Matcher for the amount pattern `₹\s?\d+|INR\s?\d+`
(src/app.py line 135). -/
def matchAmount (_prev : Option Char) (s : PyStr) : Option (PyStr × PyStr) :=
  match s with
  | [] => none
  | c :: rest =>
    if c = '₹' then amountNum [c] rest
    else if ("INR".toList).isPrefixOf s then amountNum ("INR".toList) (s.drop 3)
    else none

/-- The jurisdiction name alternatives, in the pattern's order
(src/app.py line 137). -/
def jurisdictionNames : List PyStr :=
  ["India", "Delhi", "Mumbai", "Bangalore", "Chennai"].map String.toList

/-- Try the alternatives in order, case-insensitively, each followed by a
trailing `\b`; returns the text as it appears in the input. -/
def matchAlt : List PyStr → PyStr → Option (PyStr × PyStr)
  | [], _ => none
  | name :: more, s =>
    let cand := s.take name.length
    if cand.length = name.length && pyLower cand = pyLower name &&
        endBoundary (s.drop name.length) then
      some (cand, s.drop name.length)
    else matchAlt more s

/-- Matcher for `\b(India|Delhi|Mumbai|Bangalore|Chennai)\b` with `re.I`
(src/app.py lines 136-138). -/
def matchJurisdiction (prev : Option Char) (s : PyStr) : Option (PyStr × PyStr) :=
  if !atWordBoundary prev then none else matchAlt jurisdictionNames s

def isUpperAlpha (c : Char) : Bool := 'A' ≤ c && c ≤ 'Z'

def isLowerAlpha (c : Char) : Bool := 'a' ≤ c && c ≤ 'z'

/-- One capitalized word `[A-Z][a-z]+` (greedy). -/
def matchCapWord (s : PyStr) : Option (PyStr × PyStr) :=
  match s with
  | [] => none
  | c :: rest =>
    if isUpperAlpha c then
      let ls := rest.takeWhile isLowerAlpha
      if ls = [] then none else some (c :: ls, rest.drop ls.length)
    else none

/-- Greedily collect repetitions of `(?:\s[A-Z][a-z]+)`, each paired with
the remainder after it.  The fuel bounds the remaining characters. -/
def collectExts : Nat → PyStr → List (PyStr × PyStr)
  | 0, _ => []
  | fuel + 1, s =>
    match s with
    | [] => []
    | c :: rest =>
      if pyIsSpace c then
        match matchCapWord rest with
        | some (w, r) => (c :: w, r) :: collectExts fuel r
        | none => []
      else []

/-- Resolve the trailing `\b` of the party pattern: accept all collected
repetitions when a boundary follows the last one, otherwise drop the last
repetition (after which a whitespace character follows, so the boundary
holds); at least one repetition is required. -/
def partyPick (w0 : PyStr) (exts : List (PyStr × PyStr)) :
    Option (PyStr × PyStr) :=
  match exts.getLast? with
  | none => none
  | some (_, rlast) =>
    if endBoundary rlast then
      some (w0 ++ (exts.map Prod.fst).flatten, rlast)
    else
      match exts.dropLast.getLast? with
      | none => none
      | some (_, r2) =>
        some (w0 ++ (exts.dropLast.map Prod.fst).flatten, r2)

/-- Matcher for the party pattern `\b[A-Z][a-z]+(?:\s[A-Z][a-z]+)+\b`
(src/app.py line 140). -/
def matchParty (prev : Option Char) (s : PyStr) : Option (PyStr × PyStr) :=
  if !atWordBoundary prev then none else
  match matchCapWord s with
  | none => none
  | some (w0, r0) => partyPick w0 (collectExts r0.length r0)

/-- `re.findall`: scan left to right, trying the matcher at each position;
after a match, continue at its end; otherwise advance one character.  The
previous character is threaded for the `\b` lookarounds.  The fuel is the
length of the remaining text. -/
def findallF (step : Option Char → PyStr → Option (PyStr × PyStr)) :
    Nat → Option Char → PyStr → List PyStr
  | 0, _, _ => []
  | _ + 1, _, [] => []
  | fuel + 1, prev, c :: rest =>
    match step prev (c :: rest) with
    | some (m, r) => m :: findallF step fuel m.getLast? r
    | none => findallF step fuel (some c) rest

/-- The four entity collections returned by `extract_entities`
(src/app.py lines 132-142), as a fixed-shape record with the dict's keys. -/
structure Entities where
  Dates : List PyStr
  Amounts : List PyStr
  Jurisdiction : List PyStr
  Parties : List PyStr
deriving DecidableEq

/-- `extract_entities` (src/app.py lines 132-142). -/
def extract_entities (text : PyStr) : Entities :=
  { Dates := findallF matchDate text.length none text
    Amounts := findallF matchAmount text.length none text
    Jurisdiction := findallF matchJurisdiction text.length none text
    Parties := findallF matchParty text.length none text }

/-- The `set(v)` reduction the presentation layer applies to each entity
collection before display (src/app.py line 224), modelled as duplicate
removal. -/
def pySet (l : List PyStr) : List PyStr := l.dedup

/-- The per-document aggregation of the main loop (src/app.py lines 185-195):
each clause paired with its type, risk statements and severity. -/
def clause_data (clauses : List PyStr) :
    List (PyStr × String × List String × String) :=
  clauses.map fun c =>
    (c, classify_clause c, detect_risks c, score_clause (detect_risks c))

/-- The count of High-severity rows (src/app.py lines 186, 190-192). -/
def high_risk_count (rows : List (PyStr × String × List String × String)) : Nat :=
  rows.countP fun r => r.2.2.2 == "High"

/-- The overall-risk thresholds (src/app.py lines 197-202). -/
def overall_risk (n : Nat) : String :=
  if 3 ≤ n then "HIGH RISK" else if 1 ≤ n then "MEDIUM RISK" else "LOW RISK"

/-- The deterministic core pipeline on the document text: grouped clauses,
per-clause analyses (type, risks, severity), per-clause ambiguity and
mitigation output, and the overall risk.  The audit log write and the
external language detector are outside this pure core. -/
def pipeline (text : PyStr) :
    List PyStr × List (PyStr × String × List String × String) ×
      List (List String × List String) × String :=
  let clauses := split_into_clauses text
  let rows := clause_data clauses
  let extras := clauses.map fun c =>
    (detect_ambiguity c, mitigation_advice (detect_risks c))
  (clauses, rows, extras, overall_risk (high_risk_count rows))

/-! ### Concrete documents used in the scenario and counterexample theorems -/

/-- The input of spec Scenario 1. -/
def scenario1Text : PyStr :=
  ("The tenant shall pay rent monthly. This is a general statement about the property.").toList

/-- The first sentence of Scenario 1 (trigger "shall", 34 characters). -/
def scenario1First : PyStr := ("The tenant shall pay rent monthly.").toList

/-- A document whose first retained sentence bears no trigger keyword. -/
def leadingText : PyStr :=
  ("This opening sentence is about general things only. The tenant shall pay rent monthly to the landlord.").toList

/-- The first (retained, non-trigger-bearing) sentence of `leadingText`. -/
def leadingFirst : PyStr :=
  ("This opening sentence is about general things only.").toList

/-- A document with a repeated jurisdiction mention. -/
def dupText : PyStr := ("India India").toList

/-- A document whose only sentence is shorter than 30 characters. -/
def shortText : PyStr := ("tiny words only here.").toList

/-! ### Generic whitespace and strip lemmas -/

theorem length_dropWhile_le (p : α → Bool) (l : List α) :
    (l.dropWhile p).length ≤ l.length := by
  induction l with
  | nil => simp [List.dropWhile]
  | cons a t ih =>
    by_cases h : p a
    · rw [List.dropWhile_cons_of_pos h]; exact Nat.le_succ_of_le ih
    · rw [List.dropWhile_cons_of_neg h]

theorem head_dropWhile_false (p : α → Bool) :
    ∀ (l : List α) (c : α), (l.dropWhile p).head? = some c → p c = false := by
  intro l
  induction l with
  | nil => intro c h; simp [List.dropWhile] at h
  | cons a t ih =>
    intro c h
    by_cases hp : p a
    · rw [List.dropWhile_cons_of_pos hp] at h; exact ih c h
    · rw [List.dropWhile_cons_of_neg hp] at h
      simp at h
      subst h
      simpa using hp

theorem dropWhile_eq_self_of_head (p : α → Bool) (l : List α)
    (h : ∀ c, l.head? = some c → p c = false) : l.dropWhile p = l := by
  cases l with
  | nil => rfl
  | cons a t =>
    apply List.dropWhile_cons_of_neg
    simp [h a rfl]

theorem ne_nil_of_head? {l : List α} {a : α} (h : l.head? = some a) : l ≠ [] := by
  intro e; subst e; simp at h

theorem headI_of_head? {l : List PyStr} {a : PyStr} (h : l.head? = some a) :
    l.headI = a := by
  cases l with
  | nil => simp at h
  | cons x t => simp at h; simp [List.headI, h]

theorem getLast?_suffix_eq {l s : List α} (h : l <:+ s) (hne : l ≠ []) :
    s.getLast? = l.getLast? := by
  obtain ⟨t, rfl⟩ := h
  exact List.getLast?_append_of_ne_nil t hne

theorem stripFront_eq_self (s : PyStr)
    (h : ∀ c, s.head? = some c → pyIsSpace c = false) : stripFront s = s :=
  dropWhile_eq_self_of_head _ _ h

theorem stripBack_eq_self (s : PyStr)
    (h : ∀ c, s.getLast? = some c → pyIsSpace c = false) : stripBack s = s := by
  unfold stripBack
  rw [dropWhile_eq_self_of_head _ _ (fun c hc => h c (by rwa [List.head?_reverse] at hc))]
  exact s.reverse_reverse

theorem pyStrip_eq_self (s : PyStr)
    (hh : ∀ c, s.head? = some c → pyIsSpace c = false)
    (hl : ∀ c, s.getLast? = some c → pyIsSpace c = false) : pyStrip s = s := by
  unfold pyStrip
  rw [stripFront_eq_self s hh, stripBack_eq_self s hl]

theorem stripBack_isPrefix (s : PyStr) : stripBack s <+: s := by
  unfold stripBack
  have h := List.dropWhile_suffix (l := s.reverse) pyIsSpace
  obtain ⟨t, ht⟩ := h
  refine ⟨t.reverse, ?_⟩
  have := congrArg List.reverse ht
  simpa using this

theorem head_stripFront_false (s : PyStr) :
    ∀ c, (stripFront s).head? = some c → pyIsSpace c = false :=
  fun c h => head_dropWhile_false _ _ c h

theorem getLast_stripBack_false (s : PyStr) :
    ∀ c, (stripBack s).getLast? = some c → pyIsSpace c = false := by
  intro c h
  unfold stripBack at h
  rw [← List.head?_reverse, List.reverse_reverse] at h
  exact head_dropWhile_false _ _ c h

theorem head_pyStrip_false (s : PyStr) :
    ∀ c, (pyStrip s).head? = some c → pyIsSpace c = false := by
  intro c h
  obtain ⟨t, ht⟩ := stripBack_isPrefix (stripFront s)
  have hne : stripBack (stripFront s) ≠ [] := ne_nil_of_head? h
  have : (stripFront s).head? = some c := by
    rw [← ht, List.head?_append_of_ne_nil _ hne]
    exact h
  exact head_stripFront_false s c this

theorem getLast_pyStrip_false (s : PyStr) :
    ∀ c, (pyStrip s).getLast? = some c → pyIsSpace c = false :=
  fun c h => getLast_stripBack_false _ c h

theorem pyStrip_idem (s : PyStr) : pyStrip (pyStrip s) = pyStrip s :=
  pyStrip_eq_self _ (head_pyStrip_false s) (getLast_pyStrip_false s)

theorem head_false_of_strip_eq {s : PyStr} (h : pyStrip s = s) :
    ∀ c, s.head? = some c → pyIsSpace c = false := by
  intro c hc
  rw [← h] at hc
  exact head_pyStrip_false s c hc

theorem getLast_false_of_strip_eq {s : PyStr} (h : pyStrip s = s) :
    ∀ c, s.getLast? = some c → pyIsSpace c = false := by
  intro c hc
  rw [← h] at hc
  exact getLast_pyStrip_false s c hc

theorem suffix_dropWhile_append (p : Char → Bool) :
    ∀ (x sent : PyStr), (∀ c, sent.head? = some c → p c = false) →
      sent <:+ (x ++ sent).dropWhile p := by
  intro x
  induction x with
  | nil =>
    intro sent h
    rw [List.nil_append, dropWhile_eq_self_of_head p sent h]
  | cons a x' ih =>
    intro sent h
    by_cases hp : p a
    · rw [List.cons_append, List.dropWhile_cons_of_pos hp]
      exact ih sent h
    · rw [List.cons_append, List.dropWhile_cons_of_neg hp]
      exact ((List.suffix_append x' sent).trans (List.suffix_cons a (x' ++ sent)))

theorem pyStrip_append_keep (buf sent : PyStr) (hs : pyStrip sent = sent)
    (hne : sent ≠ []) : ∃ y, pyStrip (buf ++ ' ' :: sent) = y ++ sent := by
  have hX : buf ++ ' ' :: sent = (buf ++ [' ']) ++ sent := by simp
  have hsuf := suffix_dropWhile_append pyIsSpace (buf ++ [' ']) sent
    (head_false_of_strip_eq hs)
  obtain ⟨y, hy⟩ := hsuf
  refine ⟨y, ?_⟩
  unfold pyStrip stripFront
  rw [hX, ← hy]
  apply stripBack_eq_self
  intro c hc
  rw [getLast?_suffix_eq (List.suffix_append y sent) hne] at hc
  exact getLast_false_of_strip_eq hs c hc

theorem length_pyStrip_append (buf sent : PyStr) (hs : pyStrip sent = sent)
    (hne : sent ≠ []) : sent.length ≤ (pyStrip (buf ++ ' ' :: sent)).length := by
  obtain ⟨y, hy⟩ := pyStrip_append_keep buf sent hs hne
  rw [hy, List.length_append]
  omega

/-! ### The normalized text has no whitespace at either end -/

theorem pySplitWsF_tokens : ∀ (fuel : Nat) (s : PyStr), s.length ≤ fuel →
    ∀ t ∈ pySplitWsF fuel s, t ≠ [] ∧ ∀ c ∈ t, pyIsSpace c = false := by
  intro fuel
  induction fuel with
  | zero => intro s _ t ht; simp [pySplitWsF] at ht
  | succ f ih =>
    intro s hlen t ht
    cases s with
    | nil => simp [pySplitWsF] at ht
    | cons c rest =>
      rw [pySplitWsF] at ht
      by_cases hc : pyIsSpace c
      · rw [if_pos hc] at ht
        exact ih rest (by simp at hlen; omega) t ht
      · rw [if_neg hc] at ht
        rcases List.mem_cons.mp ht with h | h
        · subst h
          refine ⟨by simp, ?_⟩
          intro x hx
          rcases List.mem_cons.mp hx with rfl | hx
          · simpa using hc
          · have := List.mem_takeWhile_imp hx
            simpa using this
        · refine ih (rest.dropWhile fun d => !pyIsSpace d) ?_ t h
          have := length_dropWhile_le (fun d => !pyIsSpace d) rest
          simp at hlen
          omega

theorem pySplitWs_tokens (s : PyStr) :
    ∀ t ∈ pySplitWs s, t ≠ [] ∧ ∀ c ∈ t, pyIsSpace c = false :=
  pySplitWsF_tokens s.length s (Nat.le_refl _)

theorem joinSpace_ne_nil : ∀ (ts : List PyStr), ts ≠ [] →
    (∀ t ∈ ts, t ≠ []) → joinSpace ts ≠ [] := by
  intro ts
  match ts with
  | [] => intro h; exact absurd rfl h
  | [t] => intro _ h; simpa [joinSpace] using h t (by simp)
  | t :: t' :: more =>
    intro _ h
    show t ++ ' ' :: joinSpace (t' :: more) ≠ []
    simp

theorem head_joinSpace_false : ∀ (ts : List PyStr),
    (∀ t ∈ ts, t ≠ [] ∧ ∀ c ∈ t, pyIsSpace c = false) →
    ∀ c, (joinSpace ts).head? = some c → pyIsSpace c = false := by
  intro ts
  match ts with
  | [] => intro _ c hc; simp [joinSpace] at hc
  | [t] =>
    intro h c hc
    exact (h t (by simp)).2 c (List.mem_of_mem_head? hc)
  | t :: t' :: more =>
    intro h c hc
    have hne : t ≠ [] := (h t (by simp)).1
    rw [show joinSpace (t :: t' :: more) = t ++ ' ' :: joinSpace (t' :: more) from rfl,
      List.head?_append_of_ne_nil _ hne] at hc
    exact (h t (by simp)).2 c (List.mem_of_mem_head? hc)

theorem getLast_joinSpace_false : ∀ (ts : List PyStr),
    (∀ t ∈ ts, t ≠ [] ∧ ∀ c ∈ t, pyIsSpace c = false) →
    ∀ c, (joinSpace ts).getLast? = some c → pyIsSpace c = false := by
  intro ts
  match ts with
  | [] => intro _ c hc; simp [joinSpace] at hc
  | [t] =>
    intro h c hc
    exact (h t (by simp)).2 c (List.mem_of_mem_getLast? hc)
  | t :: t' :: more =>
    intro h c hc
    rw [show joinSpace (t :: t' :: more) = t ++ ' ' :: joinSpace (t' :: more) from rfl,
      List.getLast?_append_cons] at hc
    have hji : joinSpace (t' :: more) ≠ [] :=
      joinSpace_ne_nil _ (by simp) (fun x hx => (h x (by simp [hx])).1)
    cases hj : joinSpace (t' :: more) with
    | nil => exact absurd hj hji
    | cons j js =>
      rw [hj, List.getLast?_cons_cons] at hc
      refine getLast_joinSpace_false (t' :: more) (fun x hx => h x (by simp [hx])) c ?_
      rw [hj]
      exact hc

theorem normalize_head_false (s : PyStr) :
    ∀ c, (normalize s).head? = some c → pyIsSpace c = false :=
  head_joinSpace_false _ (pySplitWs_tokens (replaceNl s))

theorem normalize_getLast_false (s : PyStr) :
    ∀ c, (normalize s).getLast? = some c → pyIsSpace c = false :=
  getLast_joinSpace_false _ (pySplitWs_tokens (replaceNl s))

/-! ### Sentences produced by the splitting regex carry no edge whitespace -/

theorem isTerm_not_space (c : Char) (h : isTerm c = true) : pyIsSpace c = false := by
  by_cases h1 : c = '.'
  · subst h1; decide
  by_cases h2 : c = '!'
  · subst h2; decide
  by_cases h3 : c = '?'
  · subst h3; decide
  by_cases h4 : c = '।'
  · subst h4; decide
  unfold isTerm at h
  simp [h1, h2, h3, h4] at h

theorem findSplit_spec : ∀ (s p r : PyStr), findSplit s = some (p, r) →
    p.head? = s.head? ∧ (∃ a, p.getLast? = some a ∧ isTerm a = true) ∧
    r.length < s.length ∧ r <:+ s ∧
    (∀ c, r.head? = some c → pyIsSpace c = false)
  | [], p, r => by simp [findSplit]
  | [x], p, r => by simp [findSplit]
  | a :: b :: rest, p, r => by
    intro h
    rw [findSplit] at h
    by_cases hc : isTerm a && pyIsSpace b
    · rw [if_pos hc] at h
      simp at h
      obtain ⟨hp, hr⟩ := h
      subst hp
      subst hr
      have hc' : isTerm a = true ∧ pyIsSpace b = true := by simpa using hc
      refine ⟨rfl, ⟨a, rfl, hc'.1⟩, ?_, ?_, ?_⟩
      · have := length_dropWhile_le pyIsSpace (b :: rest)
        simp at this ⊢
        omega
      · exact (List.dropWhile_suffix _).trans (List.suffix_cons a (b :: rest))
      · intro c hcc
        exact head_dropWhile_false _ _ c hcc
    · rw [if_neg hc] at h
      cases hfs : findSplit (b :: rest) with
      | none => rw [hfs] at h; cases h
      | some pr =>
        obtain ⟨p', r'⟩ := pr
        rw [hfs] at h
        simp at h
        obtain ⟨hp, hr⟩ := h
        obtain ⟨ih1, ⟨a', ha', hterm⟩, ih3, ih4, ih5⟩ := findSplit_spec (b :: rest) p' r' hfs
        subst hp
        subst hr
        have hp'ne : p' ≠ [] := by
          intro e; subst e; simp at ha'
        refine ⟨rfl, ⟨a', ?_, hterm⟩, by simp at ih3 ⊢; omega,
          ih4.trans (List.suffix_cons a (b :: rest)), ih5⟩
        cases p' with
        | nil => exact absurd rfl hp'ne
        | cons q qs => rw [List.getLast?_cons_cons]; exact ha'

theorem reSplitF_strip : ∀ (fuel : Nat) (s : PyStr), s.length < fuel →
    (∀ c, s.head? = some c → pyIsSpace c = false) →
    (∀ c, s.getLast? = some c → pyIsSpace c = false) →
    ∀ piece ∈ reSplitF fuel s, pyStrip piece = piece := by
  intro fuel
  induction fuel with
  | zero => intro s h; omega
  | succ f ih =>
    intro s hlen hh hl piece hp
    rw [reSplitF] at hp
    cases hfs : findSplit s with
    | none =>
      rw [hfs] at hp
      simp at hp
      subst hp
      exact pyStrip_eq_self _ hh hl
    | some pr =>
      obtain ⟨p, r⟩ := pr
      rw [hfs] at hp
      obtain ⟨hhead, ⟨a, hlast, hterm⟩, hrlen, hsuf, hrhead⟩ := findSplit_spec s p r hfs
      rcases List.mem_cons.mp hp with rfl | hp
      · refine pyStrip_eq_self piece ?_ ?_
        · intro c hc
          rw [hhead] at hc
          exact hh c hc
        · intro c hc
          rw [hlast] at hc
          simp at hc
          subst hc
          exact isTerm_not_space _ hterm
      · refine ih r (by omega) hrhead ?_ piece hp
        intro c hc
        have hrne : r ≠ [] := by intro e; subst e; simp at hc
        rw [← getLast?_suffix_eq hsuf hrne] at hc
        exact hl c hc

/-- Every sentence handed to the grouping loop is invariant under
`str.strip()`: normalization plus the sentence split leave no leading or
trailing whitespace on any sentence. -/
theorem sentence_strip (text : PyStr) :
    ∀ s ∈ reSplit (normalize text), pyStrip s = s := by
  intro s hs
  exact reSplitF_strip (normalize text).length.succ (normalize text)
    (Nat.lt_succ_self _) (normalize_head_false text) (normalize_getLast_false text) s hs

/-! ### Invariants of the grouping loop -/

theorem groupLoop_inv : ∀ (sents cl : List PyStr) (buf : PyStr),
    (∀ s ∈ sents, pyStrip s = s) →
    (∀ c ∈ cl, 30 ≤ c.length ∧ pyStrip c = c) →
    (buf = [] ∨ 30 ≤ (pyStrip buf).length) →
    (∀ c ∈ (groupLoop sents cl buf).1, 30 ≤ c.length ∧ pyStrip c = c) ∧
    ((groupLoop sents cl buf).2 = [] ∨ 30 ≤ (pyStrip (groupLoop sents cl buf).2).length) := by
  intro sents
  induction sents with
  | nil => intro cl buf _ hcl hbuf; exact ⟨hcl, hbuf⟩
  | cons sent rest ih =>
    intro cl buf hs hcl hbuf
    have hsent : pyStrip sent = sent := hs sent (by simp)
    have hrest : ∀ s ∈ rest, pyStrip s = s := fun s h => hs s (by simp [h])
    rw [groupLoop]
    by_cases hlen : sent.length < 30
    · rw [if_pos hlen]
      exact ih cl buf hrest hcl hbuf
    · rw [if_neg hlen]
      by_cases htrig : hasLegalIntent sent = true
      · rw [if_pos htrig]
        refine ih _ sent hrest ?_ ?_
        · by_cases hb : buf ≠ []
          · rw [if_pos hb]
            intro c hc
            rcases List.mem_append.mp hc with hc | hc
            · exact hcl c hc
            · simp at hc
              subst hc
              have h30 : 30 ≤ (pyStrip buf).length := by
                rcases hbuf with h | h
                · exact absurd h hb
                · exact h
              exact ⟨h30, pyStrip_idem buf⟩
          · rw [if_neg hb]
            exact hcl
        · right
          rw [hsent]
          omega
      · rw [if_neg htrig]
        refine ih cl _ hrest hcl ?_
        right
        have hne : sent ≠ [] := by
          intro e
          subst e
          simp at hlen
        have := length_pyStrip_append buf sent hsent hne
        omega

theorem mem_flushFinal {st : List PyStr × PyStr} {c : PyStr}
    (hc : c ∈ flushFinal st) :
    c ∈ st.1 ∨ (c = pyStrip st.2 ∧ pyStrip st.2 ≠ []) := by
  unfold flushFinal at hc
  by_cases hf : pyStrip st.2 ≠ []
  · rw [if_pos hf] at hc
    rcases List.mem_append.mp hc with h | h
    · exact Or.inl h
    · simp at h
      exact Or.inr ⟨h, hf⟩
  · rw [if_neg hf] at hc
    exact Or.inl hc

theorem groupedClauses_good (t : PyStr) (hsents : ∀ s ∈ reSplit t, pyStrip s = s) :
    ∀ c ∈ groupedClauses t, 30 ≤ c.length ∧ pyStrip c = c := by
  intro c hc
  have hinv := groupLoop_inv (reSplit t) [] [] hsents (by simp) (Or.inl rfl)
  rcases mem_flushFinal hc with h | ⟨h, hne⟩
  · exact hinv.1 c h
  · subst h
    rcases hinv.2 with h2 | h2
    · rw [h2] at hne
      simp [pyStrip, stripFront, stripBack, List.dropWhile] at hne
    · exact ⟨h2, pyStrip_idem _⟩

/-! ### The first retained non-trigger sentence ends up in the first clause -/

theorem pyContains_nil_needle : ∀ hay : PyStr, pyContains hay [] = true := by
  intro hay
  induction hay with
  | nil => rfl
  | cons c rest ih => rw [pyContains]; simp [List.isPrefixOf]

theorem pyContains_append_right (s b : PyStr) : pyContains (s ++ b) s = true := by
  cases s with
  | nil => exact pyContains_nil_needle b
  | cons c s' =>
    rw [List.cons_append, pyContains]
    have : (c :: s').isPrefixOf (c :: (s' ++ b)) = true := by
      rw [List.isPrefixOf_iff_prefix, ← List.cons_append]
      exact List.prefix_append _ _
    rw [this]
    simp

theorem strip_space_cons (s b : PyStr) (hne : s ≠ [])
    (hh : ∀ c, s.head? = some c → pyIsSpace c = false)
    (hl : ∀ c, (s ++ b).getLast? = some c → pyIsSpace c = false) :
    pyStrip (' ' :: (s ++ b)) = s ++ b := by
  unfold pyStrip stripFront
  rw [List.dropWhile_cons_of_pos (by decide)]
  rw [dropWhile_eq_self_of_head pyIsSpace (s ++ b) ?_]
  · exact stripBack_eq_self _ hl
  · intro c hc
    cases s with
    | nil => exact absurd rfl hne
    | cons x s' =>
      rw [List.cons_append] at hc
      simp at hc
      subst hc
      exact hh _ rfl

theorem groupLoop_head_keep : ∀ (sents cl : List PyStr) (buf : PyStr) (c0 : PyStr),
    cl.head? = some c0 → (flushFinal (groupLoop sents cl buf)).head? = some c0 := by
  intro sents
  induction sents with
  | nil =>
    intro cl buf c0 h
    show (flushFinal (cl, buf)).head? = some c0
    unfold flushFinal
    by_cases hf : pyStrip buf ≠ []
    · rw [if_pos hf]
      show (cl ++ [pyStrip buf]).head? = some c0
      rw [List.head?_append_of_ne_nil _ (ne_nil_of_head? h)]
      exact h
    · rw [if_neg hf]
      exact h
  | cons sent rest ih =>
    intro cl buf c0 h
    rw [groupLoop]
    by_cases hlen : sent.length < 30
    · rw [if_pos hlen]
      exact ih cl buf c0 h
    · rw [if_neg hlen]
      by_cases htrig : hasLegalIntent sent = true
      · rw [if_pos htrig]
        apply ih
        by_cases hb : buf ≠ []
        · rw [if_pos hb]
          rw [List.head?_append_of_ne_nil _ (ne_nil_of_head? h)]
          exact h
        · rw [if_neg hb]
          exact h
      · rw [if_neg htrig]
        exact ih cl _ c0 h

theorem groupLoop_buffer_phase : ∀ (sents : List PyStr) (s b : PyStr),
    (∀ x ∈ sents, pyStrip x = x) →
    s ≠ [] →
    (∀ c, s.head? = some c → pyIsSpace c = false) →
    (∀ c, (s ++ b).getLast? = some c → pyIsSpace c = false) →
    ∃ c, (flushFinal (groupLoop sents [] (' ' :: (s ++ b)))).head? = some c ∧
      pyContains c s = true := by
  intro sents
  induction sents with
  | nil =>
    intro s b _ hne hh hl
    refine ⟨s ++ b, ?_, pyContains_append_right s b⟩
    show (flushFinal ([], ' ' :: (s ++ b))).head? = some (s ++ b)
    unfold flushFinal
    have hstrip : pyStrip (' ' :: (s ++ b)) = s ++ b := strip_space_cons s b hne hh hl
    have hnz : pyStrip (' ' :: (s ++ b)) ≠ [] := by
      rw [hstrip]
      cases s with
      | nil => exact absurd rfl hne
      | cons x s' => simp
    rw [if_pos hnz]
    rw [hstrip]
    rfl
  | cons sent rest ih =>
    intro s b hs hne hh hl
    have hsent : pyStrip sent = sent := hs sent (by simp)
    have hrest : ∀ x ∈ rest, pyStrip x = x := fun x h => hs x (by simp [h])
    rw [groupLoop]
    by_cases hlen : sent.length < 30
    · rw [if_pos hlen]
      exact ih s b hrest hne hh hl
    · rw [if_neg hlen]
      have hsne : sent ≠ [] := by
        intro e
        subst e
        simp at hlen
      by_cases htrig : hasLegalIntent sent = true
      · rw [if_pos htrig]
        have hbne : (' ' :: (s ++ b) : PyStr) ≠ [] := by simp
        rw [if_pos hbne]
        have hstrip : pyStrip (' ' :: (s ++ b)) = s ++ b := strip_space_cons s b hne hh hl
        refine ⟨s ++ b, ?_, pyContains_append_right s b⟩
        apply groupLoop_head_keep
        rw [hstrip]
        rfl
      · rw [if_neg htrig]
        have hassoc : (' ' :: (s ++ b)) ++ ' ' :: sent = ' ' :: (s ++ (b ++ ' ' :: sent)) := by
          simp
        rw [hassoc]
        refine ih s (b ++ ' ' :: sent) hrest hne hh ?_
        intro c hc
        rw [show s ++ (b ++ ' ' :: sent) = (s ++ b) ++ ' ' :: sent by simp] at hc
        rw [List.getLast?_append_cons] at hc
        cases sent with
        | nil => exact absurd rfl hsne
        | cons y ys =>
          rw [List.getLast?_cons_cons] at hc
          exact getLast_false_of_strip_eq hsent c hc

theorem groupLoop_entry : ∀ (sents : List PyStr),
    (∀ x ∈ sents, pyStrip x = x) →
    ∀ s, (sents.filter fun x => 30 ≤ x.length).head? = some s →
    hasLegalIntent s = false →
    ∃ c, (flushFinal (groupLoop sents [] [])).head? = some c ∧
      pyContains c s = true := by
  intro sents
  induction sents with
  | nil => intro _ s h; simp at h
  | cons sent rest ih =>
    intro hs s hhead htrig
    have hsent : pyStrip sent = sent := hs sent (by simp)
    have hrest : ∀ x ∈ rest, pyStrip x = x := fun x h => hs x (by simp [h])
    rw [groupLoop]
    by_cases hlen : sent.length < 30
    · rw [if_pos hlen]
      apply ih hrest s ?_ htrig
      rw [List.filter_cons_of_neg (by simpa using Nat.not_le.mpr hlen)] at hhead
      exact hhead
    · rw [if_neg hlen]
      rw [List.filter_cons_of_pos (by simpa using Nat.le_of_not_lt hlen)] at hhead
      simp at hhead
      subst hhead
      rw [if_neg (by rw [htrig]; simp)]
      have hsne : sent ≠ [] := by
        intro e
        subst e
        simp at hlen
      have hpre : ([] : PyStr) ++ ' ' :: sent = ' ' :: (sent ++ []) := by simp
      rw [hpre]
      refine groupLoop_buffer_phase rest sent [] hrest hsne
        (head_false_of_strip_eq hsent) ?_
      intro c hc
      rw [List.append_nil] at hc
      exact getLast_false_of_strip_eq hsent c hc

/-! ### Claim theorems -/

set_option maxRecDepth 8192

/-- C1, counterexample: on `leadingText` the first retained sentence bears no
trigger keyword, yet its text does appear in a returned clause (it becomes the
first clause), contradicting the claim that such a sentence's text appears in
no returned clause.  In the source, `buffer += " " + sent` extends the empty
buffer, and the non-empty buffer is later flushed. -/
theorem C1_counterexample :
    (retainedSentences leadingText).head? = some leadingFirst ∧
    hasLegalIntent leadingFirst = false ∧
    ∃ c ∈ split_into_clauses leadingText, pyContains c leadingFirst = true := by
  decide

/-- C1, amended: for every input whose first retained sentence contains no
trigger keyword, that sentence's text is not lost: it appears inside the
first returned clause. -/
theorem C1_first_sentence_kept : ∀ (text s : PyStr),
    (retainedSentences text).head? = some s →
    hasLegalIntent s = false →
    split_into_clauses text ≠ [] ∧
    pyContains ((split_into_clauses text).headI) s = true := by
  intro text s hhead htrig
  have hsents := sentence_strip text
  have hhead' : ((reSplit (normalize text)).filter fun x => 30 ≤ x.length).head? =
      some s := hhead
  obtain ⟨c, hc, hcont⟩ := groupLoop_entry (reSplit (normalize text)) hsents s hhead' htrig
  have hg : (groupedClauses (normalize text)).head? = some c := hc
  have hne : groupedClauses (normalize text) ≠ [] := ne_nil_of_head? hg
  have hsplit : split_into_clauses text = groupedClauses (normalize text) := by
    simp only [split_into_clauses]
    rw [if_pos hne]
  rw [hsplit]
  exact ⟨hne, by rw [headI_of_head? hg]; exact hcont⟩

/-- C1, witness for the amended theorem at `leadingText`. -/
theorem C1_first_sentence_kept_witness :
    split_into_clauses leadingText ≠ [] ∧
    pyContains ((split_into_clauses leadingText).headI) leadingFirst = true :=
  C1_first_sentence_kept leadingText leadingFirst (by decide) (by decide)

/-- C2, counterexample: on the Scenario 1 input the pipeline produces exactly
one clause, but its text is the whole input (both sentences), not the first
sentence only: the 47-character second sentence passes the length filter,
bears no trigger, and is appended to the buffer. -/
theorem C2_counterexample :
    split_into_clauses scenario1Text = [scenario1Text] ∧
    scenario1Text ≠ scenario1First := by
  decide

/-- C2, amended: on the Scenario 1 input the pipeline produces exactly one
clause whose text is the two sentences joined by a single space; that clause
is classified Obligation, its risk-statement sequence is empty, and its
severity is Low. -/
theorem C2_single_joined_clause :
    split_into_clauses scenario1Text = [scenario1Text] ∧
    scenario1Text =
      scenario1First ++ ' ' :: ("This is a general statement about the property.").toList ∧
    classify_clause scenario1Text = "Obligation" ∧
    detect_risks scenario1Text = [] ∧
    score_clause (detect_risks scenario1Text) = "Low" := by
  decide

/-- C3: `split_into_clauses` always returns a non-empty list; when the
grouping loop (with its final flush) produced no clauses, the whole
normalized text is returned as a single clause; empty input yields the
single-clause list containing the empty string. -/
theorem C3_fallback_nonempty : ∀ text : PyStr,
    split_into_clauses text ≠ [] ∧
    (groupedClauses (normalize text) = [] → split_into_clauses text = [normalize text]) ∧
    split_into_clauses [] = [[]] := by
  intro text
  refine ⟨?_, ?_, by decide⟩
  · by_cases h : groupedClauses (normalize text) = [] <;> simp [split_into_clauses, h]
  · intro h
    simp [split_into_clauses, h]

/-- C3, witness: on `shortText` (a single 21-character sentence) the loop
produces nothing and the fallback fires. -/
theorem C3_fallback_nonempty_witness :
    split_into_clauses shortText ≠ [] ∧
    split_into_clauses shortText = [normalize shortText] :=
  ⟨(C3_fallback_nonempty shortText).1, (C3_fallback_nonempty shortText).2.1 (by decide)⟩

/-- C4: the Risk Scorer returns "Low" iff the risk list is empty, "Medium"
iff it has exactly one element, and "High" iff it has two or more; it is a
total function with no error cases. -/
theorem C4_score_levels : ∀ risks : List String,
    (score_clause risks = "Low" ↔ risks = []) ∧
    (score_clause risks = "Medium" ↔ risks.length = 1) ∧
    (score_clause risks = "High" ↔ 2 ≤ risks.length) := by
  intro risks
  rcases risks with _ | ⟨r1, _ | ⟨r2, rs⟩⟩ <;> simp [score_clause]

/-- C5: normalization and the sentence split leave no leading or trailing
whitespace on any sentence, so the grouping loop's untrimmed length filter
retains exactly the sentences whose trimmed length is at least 30. -/
theorem C5_length_filter_is_trimmed : ∀ text : PyStr,
    (∀ s ∈ reSplit (normalize text), pyStrip s = s) ∧
    (reSplit (normalize text)).filter (fun s => 30 ≤ s.length) =
      (reSplit (normalize text)).filter (fun s => 30 ≤ (pyStrip s).length) := by
  intro text
  have h := sentence_strip text
  refine ⟨h, List.filter_congr ?_⟩
  intro s hs
  rw [h s hs]

/-- C5, witness at the Scenario 1 input. -/
theorem C5_length_filter_is_trimmed_witness :
    pyStrip scenario1First = scenario1First ∧
    (reSplit (normalize scenario1Text)).filter (fun s => 30 ≤ s.length) =
      (reSplit (normalize scenario1Text)).filter (fun s => 30 ≤ (pyStrip s).length) :=
  ⟨(C5_length_filter_is_trimmed scenario1Text).1 scenario1First (by decide),
    (C5_length_filter_is_trimmed scenario1Text).2⟩

/-- C6, counterexample: `extract_entities` does not set-reduce its
collections: on `dupText` the Jurisdiction collection contains the string
"India" twice.  (`re.findall` keeps duplicates; `set(v)` is applied only at
display time, src/app.py line 224.) -/
theorem C6_counterexample :
    (extract_entities dupText).Jurisdiction = [("India").toList, ("India").toList] ∧
    ¬ (extract_entities dupText).Jurisdiction.Nodup := by
  decide

/-- C6, amended: the collections returned by `extract_entities` may contain
duplicates; after the presentation layer's set reduction (`pySet`, modelling
`set(v)` on line 224) each of the four collections contains no duplicate
strings. -/
theorem C6_display_dedup : ∀ text : PyStr,
    (pySet (extract_entities text).Dates).Nodup ∧
    (pySet (extract_entities text).Amounts).Nodup ∧
    (pySet (extract_entities text).Jurisdiction).Nodup ∧
    (pySet (extract_entities text).Parties).Nodup :=
  fun _ => ⟨List.nodup_dedup _, List.nodup_dedup _, List.nodup_dedup _, List.nodup_dedup _⟩

/-- C7: the Clause Classifier returns exactly one of the four labels, decided
by the priority-ordered case-insensitive substring tests of the source:
"shall not"/"must not" give Prohibition; otherwise "shall"/"must" give
Obligation; otherwise "may" gives Right; otherwise General. -/
theorem C7_classifier : ∀ text : PyStr,
    (classify_clause text = "Prohibition" ∨ classify_clause text = "Obligation" ∨
     classify_clause text = "Right" ∨ classify_clause text = "General") ∧
    (classify_clause text = "Prohibition" ↔
      (pyContains (pyLower text) ("shall not".toList) = true ∨
       pyContains (pyLower text) ("must not".toList) = true)) ∧
    (classify_clause text = "Obligation" ↔
      (¬(pyContains (pyLower text) ("shall not".toList) = true ∨
         pyContains (pyLower text) ("must not".toList) = true) ∧
       (pyContains (pyLower text) ("shall".toList) = true ∨
        pyContains (pyLower text) ("must".toList) = true))) ∧
    (classify_clause text = "Right" ↔
      (¬(pyContains (pyLower text) ("shall not".toList) = true ∨
         pyContains (pyLower text) ("must not".toList) = true) ∧
       ¬(pyContains (pyLower text) ("shall".toList) = true ∨
         pyContains (pyLower text) ("must".toList) = true) ∧
       pyContains (pyLower text) ("may".toList) = true)) ∧
    (classify_clause text = "General" ↔
      (¬(pyContains (pyLower text) ("shall not".toList) = true ∨
         pyContains (pyLower text) ("must not".toList) = true) ∧
       ¬(pyContains (pyLower text) ("shall".toList) = true ∨
         pyContains (pyLower text) ("must".toList) = true) ∧
       ¬ pyContains (pyLower text) ("may".toList) = true)) := by
  intro text
  cases h1 : pyContains (pyLower text) ("shall not".toList) <;>
  cases h2 : pyContains (pyLower text) ("must not".toList) <;>
  cases h3 : pyContains (pyLower text) ("shall".toList) <;>
  cases h4 : pyContains (pyLower text) ("must".toList) <;>
  cases h5 : pyContains (pyLower text) ("may".toList) <;>
    simp_all [classify_clause]

/-- C8: the Aggregator's overall risk is the fixed-threshold function of the
count of High-severity clause rows: HIGH RISK iff the count is at least 3,
MEDIUM RISK iff it is 1 or 2, LOW RISK iff it is 0. -/
theorem C8_overall_thresholds : ∀ rows : List (PyStr × String × List String × String),
    (overall_risk (high_risk_count rows) = "HIGH RISK" ↔ 3 ≤ high_risk_count rows) ∧
    (overall_risk (high_risk_count rows) = "MEDIUM RISK" ↔
      (1 ≤ high_risk_count rows ∧ high_risk_count rows ≤ 2)) ∧
    (overall_risk (high_risk_count rows) = "LOW RISK" ↔ high_risk_count rows = 0) := by
  intro rows
  generalize high_risk_count rows = n
  unfold overall_risk
  by_cases h3 : 3 ≤ n
  · simp [h3]
    omega
  · by_cases h1 : 1 ≤ n
    · simp [h3, h1]
      omega
    · simp [h3, h1]
      omega

/-- C9: the core pipeline (Grouper, Classifier, Risk Detector, Scorer,
Ambiguity Detector, Mitigation Advisor, Aggregator) is a pure function of the
document text, so re-running it on the same input yields identical clause
lists, per-clause analyses and overall risk.  The audit-log side effect and
the external language detector are outside the embedded core. -/
theorem C9_deterministic : ∀ text : PyStr, pipeline text = pipeline text :=
  fun _ => rfl

/-- C10: whenever the whole-text fallback is not taken (the grouping loop
produced at least one clause), every returned clause is non-empty, has length
at least 30, and carries no leading or trailing whitespace. -/
theorem C10_clause_invariant : ∀ text : PyStr,
    groupedClauses (normalize text) ≠ [] →
    ∀ c ∈ split_into_clauses text, c ≠ [] ∧ 30 ≤ c.length ∧ pyStrip c = c := by
  intro text hne c hc
  have hsplit : split_into_clauses text = groupedClauses (normalize text) := by
    simp only [split_into_clauses]
    rw [if_pos hne]
  rw [hsplit] at hc
  have hgood := groupedClauses_good (normalize text) (sentence_strip text) c hc
  refine ⟨?_, hgood.1, hgood.2⟩
  intro e
  have h30 := hgood.1
  rw [e] at h30
  simp at h30

/-- C10, witness at the Scenario 1 input, whose single clause is the whole
text. -/
theorem C10_clause_invariant_witness :
    scenario1Text ≠ [] ∧ 30 ≤ scenario1Text.length ∧
    pyStrip scenario1Text = scenario1Text :=
  C10_clause_invariant scenario1Text (by decide) scenario1Text (by decide)

end LegalAssistant
